import Mathlib

/-!
Verification development for the FreeDevTools index-build-and-query pipeline.

The build side (`generateSVGIconsData`, `generateIconIDFromPath`,
`formatIconName`) is a Go batch program; the client side (`searchUtilities`,
the `SearchPage` pagination/category state) is a React component.  Go strings
are embedded at two levels.  The rune-codepoint level (`GoStr` as a list of
codepoints) is exact for the operations that are rune-transparent or
byte-for-byte on ASCII data (`strings.Replace` of ASCII patterns, the
identifier pipeline, lexicographic comparison of the ASCII ids).  The
name normalizer additionally gets a byte-level model
(`formatIconNameBytes`, over UTF-8 byte lists) because Go's `word[:1]`
slices the first *byte* of a word, which differs from the first rune on
multi-byte input; the two models are proved to agree on ASCII input.
-/

/-- A Go string modelled as its sequence of rune codepoints. -/
abbrev GoStr := List Nat

/-- Convert a Lean string literal to its rune-codepoint model. -/
def goStr (s : String) : GoStr := s.data.map Char.toNat

/-- `matchesAt pat s`: `pat` occurs at the very start of `s`. -/
def matchesAt : GoStr → GoStr → Bool
  | [], _ => true
  | _ :: _, [] => false
  | p :: ps, c :: cs => p = c && matchesAt ps cs

/-- `strings.Replace(s, pat, "", 1)` for a nonempty pattern: delete the first
occurrence of `pat` anywhere in `s` (the whole string is scanned, not just
its head). -/
def replaceFirst (pat : GoStr) : GoStr → GoStr
  | [] => []
  | c :: cs =>
    if matchesAt pat (c :: cs) then (c :: cs).drop pat.length
    else c :: replaceFirst pat cs

/-- `strings.Contains(s, pat)`: `pat` occurs somewhere in `s`. -/
def containsSub (pat : GoStr) : GoStr → Bool
  | [] => matchesAt pat []
  | c :: cs => matchesAt pat (c :: cs) || containsSub pat cs

/-- `strings.TrimSuffix(s, "/")`: drop one trailing slash (rune 47) if present. -/
def trimTrailingSlash (s : GoStr) : GoStr :=
  if s.getLast? = some 47 then s.dropLast else s

/-- `strings.Replace(s, old, new, -1)` for single runes: replace every
occurrence of `a` by `b`. -/
def replaceAll (a b : Nat) (s : GoStr) : GoStr :=
  s.map (fun c => if c = a then b else c)

/-- The character class `[a-zA-Z0-9\-_]` of the sanitizing regex. -/
def isValidIDChar (n : Nat) : Bool :=
  (65 ≤ n && n ≤ 90) || (97 ≤ n && n ≤ 122) || (48 ≤ n && n ≤ 57) || n = 45 || n = 95

/-- `reg.ReplaceAllString(s, "_")` for `reg = [^a-zA-Z0-9\-_]`: every rune
outside the class becomes an underscore (rune 95). -/
def sanitizeChars (s : GoStr) : GoStr :=
  s.map (fun c => if isValidIDChar c then c else 95)

/-- Modelled from the spec: `sanitizeID` is called by `generateIconIDFromPath`
but its definition is not among the available sources.  Section 4.1 of the
spec lists the identifier transformation exhaustively — strip the fixed
prefix, trim a trailing separator, replace separators with hyphens, replace
characters outside `[a-zA-Z0-9-_]` with underscore, prepend the category
prefix — with no further step, so on its (already sanitized) argument
`sanitizeID` is the identity. -/
def sanitizeID (s : GoStr) : GoStr := s

/-- The fixed base path removed by the identifier generator. -/
def svgIconsBase : GoStr := goStr "/freedevtools/svg_icons/"

/-- `generateIconIDFromPath` from the Go source: remove the first occurrence
of the base path, trim one trailing slash, turn the remaining slashes into
hyphens, replace invalid runes with underscores, and prepend `svg-icons-`. -/
def generateIconIDFromPath (path : GoStr) : GoStr :=
  goStr "svg-icons-" ++
    sanitizeID (sanitizeChars (replaceAll 47 45 (trimTrailingSlash
      (replaceFirst svgIconsBase path))))

/-- The spec's wording of the first step (§4.1): *strip* the fixed prefix,
i.e. remove the base only when it occurs at the start of the path. -/
def stripLeadSpec (pat s : GoStr) : GoStr :=
  if matchesAt pat s then s.drop pat.length else s

/-- The identifier composition exactly as the spec words it: prefix
stripping instead of first-occurrence removal, otherwise identical. -/
def generateIconIDSpec (path : GoStr) : GoStr :=
  goStr "svg-icons-" ++
    sanitizeChars (replaceAll 47 45 (trimTrailingSlash
      (stripLeadSpec svgIconsBase path)))

/-! ### The display-name normalizer (`formatIconName`) -/

/-- `unicode.IsSpace` restricted to the code points that survive the `_`/`-`
replacement in ASCII data: space and the ASCII control whitespace. -/
def isSpaceRune (n : Nat) : Bool :=
  n = 32 || n = 9 || n = 10 || n = 11 || n = 12 || n = 13

/-- `strings.ToUpper` on a single rune (ASCII case mapping). -/
def toUpperRune (n : Nat) : Nat := if 97 ≤ n ∧ n ≤ 122 then n - 32 else n

/-- `strings.ToLower` on a single rune (ASCII case mapping). -/
def toLowerRune (n : Nat) : Nat := if 65 ≤ n ∧ n ≤ 90 then n + 32 else n

/-- `strings.Fields`: the maximal runs of non-whitespace runes, in order. -/
def fieldsGo : GoStr → List GoStr
  | [] => []
  | c :: cs =>
    if isSpaceRune c then fieldsGo cs
    else
      match cs with
      | [] => [[c]]
      | d :: _ =>
        if isSpaceRune d then [c] :: fieldsGo cs
        else
          match fieldsGo cs with
          | [] => [[c]]
          | w :: ws => (c :: w) :: ws

/-- Title-case one word: `strings.ToUpper(word[:1]) + strings.ToLower(word[1:])`. -/
def titleWord : GoStr → GoStr
  | [] => []
  | c :: cs => toUpperRune c :: cs.map toLowerRune

/-- `strings.Join(words, " ")`. -/
def joinWords : List GoStr → GoStr
  | [] => []
  | [w] => w
  | w :: v :: ws => w ++ 32 :: joinWords (v :: ws)

/-- `formatIconName` from the Go source: replace underscores then hyphens
with spaces, split into whitespace-delimited words, title-case each word and
join them with single spaces. -/
def formatIconName (iconName : GoStr) : GoStr :=
  joinWords ((fieldsGo (replaceAll 45 32 (replaceAll 95 32 iconName))).map titleWord)

/-! ### Byte-level model of the name normalizer

Go strings are byte sequences; `strings.Fields`, `strings.ToUpper` and
`strings.ToLower` decode them as UTF-8 (an invalid byte decodes to
U+FFFD with width 1), and `word[:1]` slices the first *byte*.  The
following model works on lists of bytes. -/

/-- `utf8.DecodeRuneInString`: the first rune of a byte string and the number
of bytes it occupies.  Invalid, overlong, surrogate or truncated sequences
yield `(0xFFFD, 1)`; the empty string yields width `0`. -/
def utf8DecodeFront : List Nat → Nat × Nat
  | [] => (0xFFFD, 0)
  | b0 :: rest =>
    if b0 < 0x80 then (b0, 1)
    else if 0xC2 ≤ b0 ∧ b0 ≤ 0xDF then
      match rest with
      | b1 :: _ =>
        if 0x80 ≤ b1 ∧ b1 ≤ 0xBF then ((b0 - 0xC0) * 64 + (b1 - 0x80), 2)
        else (0xFFFD, 1)
      | [] => (0xFFFD, 1)
    else if 0xE0 ≤ b0 ∧ b0 ≤ 0xEF then
      match rest with
      | b1 :: b2 :: _ =>
        if (if b0 = 0xE0 then 0xA0 else 0x80) ≤ b1 ∧
            b1 ≤ (if b0 = 0xED then 0x9F else 0xBF) ∧
            0x80 ≤ b2 ∧ b2 ≤ 0xBF then
          ((b0 - 0xE0) * 4096 + (b1 - 0x80) * 64 + (b2 - 0x80), 3)
        else (0xFFFD, 1)
      | _ => (0xFFFD, 1)
    else if 0xF0 ≤ b0 ∧ b0 ≤ 0xF4 then
      match rest with
      | b1 :: b2 :: b3 :: _ =>
        if (if b0 = 0xF0 then 0x90 else 0x80) ≤ b1 ∧
            b1 ≤ (if b0 = 0xF4 then 0x8F else 0xBF) ∧
            0x80 ≤ b2 ∧ b2 ≤ 0xBF ∧ 0x80 ≤ b3 ∧ b3 ≤ 0xBF then
          ((b0 - 0xF0) * 262144 + (b1 - 0x80) * 4096 + (b2 - 0x80) * 64 +
            (b3 - 0x80), 4)
        else (0xFFFD, 1)
      | _ => (0xFFFD, 1)
    else (0xFFFD, 1)

/-- `utf8.EncodeRune`: the UTF-8 bytes of a rune (surrogates and
out-of-range values encode the replacement rune, as in Go). -/
def utf8EncodeRune (r : Nat) : List Nat :=
  if r < 0x80 then [r]
  else if r < 0x800 then [0xC0 + r / 64, 0x80 + r % 64]
  else if 0xD800 ≤ r ∧ r ≤ 0xDFFF then [0xEF, 0xBF, 0xBD]
  else if r < 0x10000 then [0xE0 + r / 4096, 0x80 + (r / 64) % 64, 0x80 + r % 64]
  else if r ≤ 0x10FFFF then
    [0xF0 + r / 262144, 0x80 + (r / 4096) % 64, 0x80 + (r / 64) % 64, 0x80 + r % 64]
  else [0xEF, 0xBF, 0xBD]

/-- Decode a byte string into its sequence of (rune, raw bytes) chunks, the
iteration every rune loop in Go performs.  The fuel argument is consumed one
unit per rune; since every rune occupies at least one byte, fuel equal to the
byte length suffices. -/
def utf8ChunksAux : Nat → List Nat → List (Nat × List Nat)
  | 0, _ => []
  | _ + 1, [] => []
  | fuel + 1, b :: bs =>
    ((utf8DecodeFront (b :: bs)).1, (b :: bs).take (utf8DecodeFront (b :: bs)).2) ::
      utf8ChunksAux fuel (bs.drop ((utf8DecodeFront (b :: bs)).2 - 1))

/-- The rune/byte chunk sequence of a byte string. -/
def utf8Chunks (s : List Nat) : List (Nat × List Nat) :=
  utf8ChunksAux s.length s

/-- `unicode.IsSpace`: the White_Space runes. -/
def isSpaceRuneGo (r : Nat) : Bool :=
  (9 ≤ r && r ≤ 13) || r = 32 || r = 0x85 || r = 0xA0 || r = 0x1680 ||
  (0x2000 ≤ r && r ≤ 0x200A) || r = 0x2028 || r = 0x2029 || r = 0x202F ||
  r = 0x205F || r = 0x3000

/-- `strings.Fields` at the chunk level: group the raw bytes of maximal runs
of non-whitespace runes (same splitting structure as `fieldsGo`, but testing
the decoded rune and concatenating the rune's bytes). -/
def fieldsChunks : List (Nat × List Nat) → List (List Nat)
  | [] => []
  | c :: cs =>
    if isSpaceRuneGo c.1 then fieldsChunks cs
    else
      match cs with
      | [] => [c.2]
      | d :: _ =>
        if isSpaceRuneGo d.1 then c.2 :: fieldsChunks cs
        else
          match fieldsChunks cs with
          | [] => [c.2]
          | w :: ws => (c.2 ++ w) :: ws

/-- `strings.Fields` on a byte string. -/
def fieldsBytes (s : List Nat) : List (List Nat) :=
  fieldsChunks (utf8Chunks s)

/-- `strings.Map f s`: decode every rune (invalid bytes become U+FFFD),
apply `f`, re-encode.  `strings.ToUpper`/`strings.ToLower` are `Map` with
the Unicode case functions; `toUpperRune`/`toLowerRune` are those functions
on the ASCII letters and the identity elsewhere, which agrees with Unicode
on every rune these theorems evaluate (ASCII and U+FFFD — note the first
byte of a word always decodes to an ASCII rune or U+FFFD). -/
def mapRunes (f : Nat → Nat) (s : List Nat) : List Nat :=
  ((utf8Chunks s).map (fun c => utf8EncodeRune (f c.1))).flatten

/-- The title-case step on a byte-string word, exactly as the Go source
slices it: `strings.ToUpper(word[:1]) + strings.ToLower(word[1:])` — the
first *byte*, not the first rune. -/
def titleWordBytes (w : List Nat) : List Nat :=
  mapRunes toUpperRune (w.take 1) ++ mapRunes toLowerRune (w.drop 1)

/-- `formatIconName` on the byte string it really receives: replace the
ASCII bytes `_` and `-` by spaces, split into fields by decoded whitespace
runes, title-case each word with the byte slice, join with single spaces. -/
def formatIconNameBytes (s : List Nat) : List Nat :=
  joinWords ((fieldsBytes (replaceAll 45 32 (replaceAll 95 32 s))).map titleWordBytes)

/-! ### The SVG-icons builder (`generateSVGIconsData`) -/

/-- `strings.TrimPrefix(s, "_")`: drop one leading underscore if present. -/
def trimLeadUnderscore : GoStr → GoStr
  | 95 :: cs => cs
  | s => s

/-- `strings.TrimSuffix(s, suf)`: drop one occurrence of `suf` from the end
of `s` if it ends with it. -/
def trimSuffixGo (suf s : GoStr) : GoStr :=
  if matchesAt suf.reverse s.reverse then (s.reverse.drop suf.length).reverse else s

/-- One record of a cluster entry, as the source reads it
(`fileName.FileName`, `fileName.Description`). -/
structure SVGFileName where
  FileName : GoStr
  Description : GoStr
deriving DecidableEq

/-- One cluster entry (`clusterEntry.SourceFolder`, `clusterEntry.FileNames`).
Modelled from the spec: the `SVGCluster` type declaration is not among the
available sources; §4.4/§6 describe the parsed source structure as an ordered
set of records, so `Clusters`/`FileNames` are ordered lists. -/
structure SVGClusterEntry where
  SourceFolder : GoStr
  FileNames : List SVGFileName
deriving DecidableEq

/-- The parsed `cluster_svg.json` structure (`cluster.Clusters`). -/
structure SVGCluster where
  Clusters : List SVGClusterEntry
deriving DecidableEq

/-- The uniform document schema produced for each icon. -/
structure SVGIconData where
  ID : GoStr
  Name : GoStr
  Description : GoStr
  Path : GoStr
  Image : GoStr
  Category : GoStr
deriving DecidableEq

/-- Go's byte-wise lexicographic `<` on strings (the `less` function of the
final `sort.Slice` compares `ID` strings with `<`); on the ASCII identifiers
produced here rune order and byte order coincide. -/
def goStrLt : GoStr → GoStr → Bool
  | [], [] => false
  | [], _ :: _ => true
  | _ :: _, [] => false
  | a :: as, b :: bs => if a < b then true else if b < a then false else goStrLt as bs

/-- Insert one document into a list sorted by ascending `ID`. -/
def insertByID (x : SVGIconData) : List SVGIconData → List SVGIconData
  | [] => [x]
  | y :: ys => if goStrLt x.ID y.ID then x :: y :: ys else y :: insertByID x ys

/-- `sort.Slice(svgIconsData, ... ID < ID)`: sort by ascending `ID`. -/
def sortByID (l : List SVGIconData) : List SVGIconData :=
  l.foldr insertByID []

/-- The per-record body of the builder loop: derive the icon name, display
name, path, identifier, description and image exactly as the source does. -/
def buildIcon (sourceFolder : GoStr) (f : SVGFileName) : SVGIconData :=
  let iconName := trimSuffixGo (goStr ".svg") (trimLeadUnderscore f.FileName)
  let displayName := formatIconName iconName
  let iconPath := goStr "/freedevtools/svg_icons/" ++ sourceFolder ++ goStr "/" ++
    iconName ++ goStr "/"
  let description := if f.Description = [] then goStr "SVG icon for " ++ displayName
    else f.Description
  { ID := generateIconIDFromPath iconPath
    Name := displayName
    Description := description
    Path := iconPath
    Image := goStr "/svg_icons/" ++ sourceFolder ++ goStr "/" ++ f.FileName
    Category := goStr "svg_icons" }

/-- `generateSVGIconsData` on an already-parsed cluster: every record of
every cluster entry yields one document (no skipping, no per-record failure,
no duplicate-id check), and the merged list is sorted by `ID`.  The only
error paths of the Go function precede this loop (file read, JSON parse,
context cancellation), so on a parsed cluster the builder always succeeds. -/
def generateSVGIconsData (c : SVGCluster) : List SVGIconData :=
  sortByID ((c.Clusters.map
    (fun e => e.FileNames.map (buildIcon e.SourceFolder))).flatten)

/-! ### The client query planner (`searchUtilities` in `SearchPage.tsx`) -/

/-- The category-to-filter-literal aliasing inside the `categories.map`:
the UI tag `emoji` is emitted as the stored literal `emojis`, every other
tag is emitted verbatim. -/
def aliasCategory (c : String) : String := if c = "emoji" then "emojis" else c

/-- The `filter` member of the request body.  `eqCond lit` stands for the
predicate string `category = <quoted lit>`; `orConds lits` stands for the
`" OR "`-join of those predicate strings in list order. -/
inductive MeiliFilter where
  | eqCond (lit : String)
  | orConds (lits : List String)
deriving DecidableEq

/-- The filter construction of `searchUtilities`: no filter when no category
is selected; a single equality condition for one category; the OR-join of
the per-category conditions (in selection order) for several. -/
def buildFilter (categories : List String) : Option MeiliFilter :=
  if categories.isEmpty then none
  else
    let conds := categories.map aliasCategory
    match conds with
    | [only] => some (.eqCond only)
    | _ => some (.orConds conds)

/-- The response fields the client consumes.  Hits are abstracted to their
identifiers; the facet distribution is the list of per-category counts. -/
structure SearchResponseM where
  hits : List String
  estimatedTotalHits : Nat
  processingTimeMs : Nat
  facetCounts : List Nat
deriving DecidableEq

/-- The recovery value built in the `catch` branch of `searchUtilities`. -/
def emptyResponse : SearchResponseM :=
  { hits := [], estimatedTotalHits := 0, processingTimeMs := 0, facetCounts := [] }

/-- Outcome of the underlying `fetch`: a parsed response, or a network
error / non-ok status (both reach the same `catch`). -/
inductive FetchOutcome where
  | ok (r : SearchResponseM)
  | err (msg : String)
deriving DecidableEq

/-- The error handling of `searchUtilities`: a successful fetch returns the
parsed response; a thrown error or non-ok status is caught locally and the
function returns the fixed empty response instead of throwing.  As a total
Lean function it can never propagate an exception to the caller. -/
def searchUtilities : FetchOutcome → SearchResponseM
  | .ok r => r
  | .err _ => emptyResponse

/-! ### Pagination (`totalPages` / `hasMoreResults` / `loadMoreResults`) -/

/-- `facetTotal > 0 ? facetTotal : estimatedTotalHits`: the displayed total
is the facet-count sum when positive, else the engine's estimate. -/
def computeTotalHits (facetCounts : List Nat) (estimated : Nat) : Nat :=
  if facetCounts.sum > 0 then facetCounts.sum else estimated

/-- `Math.ceil(totalHits / 100)` on naturals. -/
def totalPages (totalHits : Nat) : Nat := (totalHits + 99) / 100

/-- `hasMoreResults = currentPage < totalPages`. -/
def hasMoreResults (currentPage totalHits : Nat) : Bool :=
  currentPage < totalPages totalHits

/-- The component state that `loadMoreResults` reads and writes. -/
structure PageState where
  allResults : List String
  currentPage : Nat
  totalHits : Nat
  loadingMore : Bool
deriving DecidableEq

/-- `hasMoreResults` evaluated on a state. -/
def hasMoreS (s : PageState) : Bool := hasMoreResults s.currentPage s.totalHits

/-- `loadMoreResults`: early-returns when no further page exists or another
load is in flight; otherwise appends the fetched hits and increments the
page counter (`none` models the `catch` branch in which an exception ends
the call with only the `finally` reset of `loadingMore`). -/
def loadMoreResults (s : PageState) (outcome : Option SearchResponseM) : PageState :=
  if !hasMoreS s || s.loadingMore then s
  else
    match outcome with
    | some r =>
      { s with allResults := s.allResults ++ r.hits,
               currentPage := s.currentPage + 1,
               loadingMore := false }
    | none => { s with loadingMore := false }

/-! ### Category-selection state (`handleCategoryClick` /
`handleCategoryRightClick` / `clearResults`) -/

/-- The two pieces of selection state the component keeps. -/
structure CatState where
  activeCategory : String
  selectedCategories : List String
deriving DecidableEq

/-- Initial component state: `useState("all")`, `useState([])`. -/
def initCatState : CatState := ⟨"all", []⟩

/-- The three selection-changing operations of the component. -/
inductive CatEv where
  | leftClick (c : String)
  | rightClick (c : String)
  | clearResults
deriving DecidableEq

/-- One event of the selection state machine, as the three handlers write
it: left click single-selects (or resets on `all`); right click toggles the
category in the multi-selection, falling back to `all` when the selection
empties; clearing resets both fields. -/
def catStep (s : CatState) : CatEv → CatState
  | .leftClick c => if c = "all" then ⟨"all", []⟩ else ⟨c, [c]⟩
  | .rightClick c =>
    if c = "all" then ⟨"all", []⟩
    else if s.selectedCategories.contains c then
      let ns := s.selectedCategories.filter (fun x => x ≠ c)
      if ns.isEmpty then ⟨"all", ns⟩ else ⟨"multi", ns⟩
    else ⟨"multi", s.selectedCategories ++ [c]⟩
  | .clearResults => ⟨"all", []⟩

/-- Run a sequence of selection events from the initial state. -/
def runCat (evs : List CatEv) : CatState := evs.foldl catStep initCatState

/-- `getEffectiveCategories`: no filter for `all`, the multi-selection for
`multi`, the singleton of the active category otherwise. -/
def getEffectiveCategories (s : CatState) : List String :=
  if s.activeCategory = "all" then []
  else if s.activeCategory = "multi" then s.selectedCategories
  else [s.activeCategory]

/-! ### The page-1 search effect as an interleaving model (`SearchPage`'s
debounced `useEffect`) -/

/-- State of the debounced search effect: the current query (the request
signature), a pending debounce timer carrying the signature it will fetch,
in-flight requests tagged with their signature at send time, and the
signature of the response most recently written into `results` /
`allResults`. -/
structure EffectState where
  query : String
  pendingTimer : Option String
  inflight : List (Nat × String)
  applied : Option (Nat × String)
  nextId : Nat
deriving DecidableEq

/-- Initial effect state: empty query, nothing scheduled or in flight. -/
def initEffectState : EffectState :=
  { query := "", pendingTimer := none, inflight := [], applied := none, nextId := 0 }

/-- The interleaving events: the user edits the query, a debounce timer
fires (starting the fetch for its signature), or an in-flight response
arrives. -/
inductive SearchEv where
  | setQuery (q : String)
  | timerFire
  | respond (rid : Nat)
deriving DecidableEq

/-- One step of the effect.  `setQuery` re-runs the effect: the cleanup
clears the previous *timer* (an unfired debounce is cancelled) and a new
timer is scheduled — but an already in-flight fetch is untouched.
`timerFire` starts the fetch for the timer's signature.  `respond rid`
models the `await` resuming: the source applies `setResults` /
`setAllResults` unconditionally, with no comparison of the response's
signature against the current one. -/
def searchStep (s : EffectState) : SearchEv → EffectState
  | .setQuery q => { s with query := q, pendingTimer := some q }
  | .timerFire =>
    match s.pendingTimer with
    | some sig =>
      { s with pendingTimer := none,
               inflight := s.inflight ++ [(s.nextId, sig)],
               nextId := s.nextId + 1 }
    | none => s
  | .respond rid =>
    match s.inflight.find? (fun p => p.fst = rid) with
    | some req =>
      { s with inflight := s.inflight.filter (fun p => p.fst ≠ rid),
               applied := some req }
    | none => s

/-- Run a sequence of effect events from the initial state. -/
def runSearch (evs : List SearchEv) : EffectState :=
  evs.foldl searchStep initEffectState

/-- The interleaving of the claim: a page-1 fetch for signature `A` is in
flight when the query changes to `B`, and the stale response then arrives. -/
def staleTrace : List SearchEv :=
  [.setQuery "A", .timerFire, .setQuery "B", .respond 0]

/-- A parsed cluster in which two records resolve to the same identifier:
`a.svg` and `_a.svg` in the same source folder both yield the icon name `a`,
hence the same path and the same id. -/
def collisionCluster : SVGCluster :=
  ⟨[⟨goStr "arrows", [⟨goStr "a.svg", []⟩, ⟨goStr "_a.svg", []⟩]⟩]⟩

/-! ## Theorems -/

/-- C1: the builder performs no duplicate-id detection.  On a parsed cluster
whose two records resolve to the same identifier, `generateSVGIconsData`
returns successfully and its output contains the id `svg-icons-arrows-a`
twice — it does not abort, and the emitted id sequence is not duplicate-free
as the claim requires. -/
theorem c1_duplicate_ids_kept :
    ((generateSVGIconsData collisionCluster).map (fun d => d.ID)) =
      [goStr "svg-icons-arrows-a", goStr "svg-icons-arrows-a"] ∧
    decide (((generateSVGIconsData collisionCluster).map (fun d => d.ID)).Nodup)
      = false := by
  exact ⟨by decide, by decide⟩

/-- C2: the search effect applies a late response without any signature
comparison.  In the interleaving where the page-1 fetch for query `A` is in
flight and the query changes to `B` before it resolves, the arriving `A`
response is written into the displayed results (`applied = some (0, "A")`)
even though the current signature is `B` — the claimed last-request-wins
discard does not happen. -/
theorem c2_stale_response_applied :
    (runSearch staleTrace).query = "B" ∧
    (runSearch staleTrace).applied = some (0, "A") := by
  exact ⟨by decide, by decide⟩

/-- C5: the filter construction of `searchUtilities` emits no filter for an
empty selection, a single equality condition for one category, and the
OR-join of the per-category conditions in selection order for several; the
`emoji` tag is aliased to the stored literal `emojis` in both the single and
the multi-select case. -/
theorem c5_filter_construction :
    buildFilter [] = none ∧
    (∀ c : String, buildFilter [c] = some (.eqCond (aliasCategory c))) ∧
    (∀ (c₁ c₂ : String) (cs : List String),
      buildFilter (c₁ :: c₂ :: cs) =
        some (.orConds ((c₁ :: c₂ :: cs).map aliasCategory))) ∧
    buildFilter ["emoji"] = some (.eqCond "emojis") ∧
    buildFilter ["tools", "emoji"] = some (.orConds ["tools", "emojis"]) := by
  refine ⟨rfl, fun c => rfl, fun c₁ c₂ cs => rfl, by decide, by decide⟩

/-- C6: `hasMoreResults` computed from `currentPage < Math.ceil(total/100)`
coincides with `counter * 100 < total`, where the total is the facet-count
sum when positive and the engine estimate otherwise; for a corpus of 250
matching documents it is still true after pages 1 and 2 and becomes false
exactly once page 3 has been accumulated. -/
theorem c6_hasmore_formula :
    (∀ (p : Nat) (fc : List Nat) (est : Nat),
      hasMoreResults p (computeTotalHits fc est) =
        decide (p * 100 < computeTotalHits fc est)) ∧
    hasMoreResults 1 250 = true ∧
    hasMoreResults 2 250 = true ∧
    hasMoreResults 3 250 = false := by
  refine ⟨fun p fc est => ?_, by decide, by decide, by decide⟩
  simp only [hasMoreResults, totalPages, decide_eq_decide]
  omega

/-- C8: `loadMoreResults` is a no-op whenever a page fetch is already in
flight (`loadingMore`) or no further results exist (`hasMoreS` false); on the
exception path the accumulated results and the page counter are unchanged;
and the counter is incremented (with the hits appended) exactly on a
successful fetch. -/
theorem c8_loadmore_guard (s : PageState) (o : Option SearchResponseM) :
    (s.loadingMore = true ∨ hasMoreS s = false → loadMoreResults s o = s) ∧
    ((loadMoreResults s none).currentPage = s.currentPage ∧
     (loadMoreResults s none).allResults = s.allResults) ∧
    (∀ r : SearchResponseM, hasMoreS s = true → s.loadingMore = false →
      (loadMoreResults s (some r)).currentPage = s.currentPage + 1 ∧
      (loadMoreResults s (some r)).allResults = s.allResults ++ r.hits) := by
  refine ⟨?_, ?_, ?_⟩
  · rintro (h | h) <;> simp [loadMoreResults, h]
  · by_cases h1 : hasMoreS s <;> by_cases h2 : s.loadingMore <;>
      simp [loadMoreResults, h1, h2]
  · intro r h1 h2
    simp [loadMoreResults, h1, h2]

/-- Witness for C8: in a concrete state with a fetch already in flight
(`loadingMore = true`), a load-more trigger leaves the state unchanged. -/
theorem c8_loadmore_guard_witness :
    loadMoreResults ⟨["x"], 1, 250, true⟩ (some ⟨["y"], 7, 3, []⟩) =
      ⟨["x"], 1, 250, true⟩ :=
  (c8_loadmore_guard ⟨["x"], 1, 250, true⟩ (some ⟨["y"], 7, 3, []⟩)).1 (Or.inl rfl)

/-- C9 counterexample: the recovery value returned on a failed service call
is equal to the response of a genuine zero-hit search, so no "search failed"
state distinct from an empty result exists — the client cannot tell the two
apart, contradicting the claim's required distinct failure state. -/
theorem c9_failure_indistinguishable :
    searchUtilities (.err "network error") = searchUtilities (.ok emptyResponse) ∧
    (searchUtilities (.err "network error")).hits = [] := ⟨rfl, rfl⟩

/-- C9 amended: every failed or non-ok service call is recovered locally —
`searchUtilities` never propagates the error and yields the fixed empty
result set (zero hits, zero totals), which the UI renders as an ordinary
"no results" state. -/
theorem c9_local_recovery :
    ∀ msg : String, searchUtilities (.err msg) = emptyResponse ∧
      (searchUtilities (.err msg)).hits = [] :=
  fun _ => ⟨rfl, rfl⟩

/-- C3 counterexample: the id generator is not the claimed prefix-stripping
composition on every path.  On `x/freedevtools/svg_icons/a` the base path
occurs in the middle of the string; the code removes that first occurrence
(yielding `svg-icons-xa`) while the spec composition, which strips the base
only as a prefix, leaves it in place. -/
theorem c3_substring_removal_differs :
    generateIconIDFromPath (goStr "x/freedevtools/svg_icons/a") =
      goStr "svg-icons-xa" ∧
    generateIconIDSpec (goStr "x/freedevtools/svg_icons/a") =
      goStr "svg-icons-x-freedevtools-svg_icons-a" ∧
    decide (generateIconIDFromPath (goStr "x/freedevtools/svg_icons/a") =
      generateIconIDSpec (goStr "x/freedevtools/svg_icons/a")) = false := by
  exact ⟨by decide, by decide, by decide⟩

theorem matchesAt_of_contains_false (pat : GoStr) :
    ∀ s : GoStr, containsSub pat s = false → matchesAt pat s = false := by
  intro s h
  cases s with
  | nil => exact h
  | cons c cs =>
    simp only [containsSub, Bool.or_eq_false_iff] at h
    exact h.1

theorem replaceFirst_of_contains_false (pat : GoStr) :
    ∀ s : GoStr, containsSub pat s = false → replaceFirst pat s = s := by
  intro s
  induction s with
  | nil => intro _; rfl
  | cons c cs ih =>
    intro h
    simp only [containsSub, Bool.or_eq_false_iff] at h
    simp only [replaceFirst, h.1, Bool.false_eq_true, if_false]
    rw [ih h.2]

theorem stripLeadSpec_of_contains_false (pat : GoStr) :
    ∀ s : GoStr, containsSub pat s = false → stripLeadSpec pat s = s := by
  intro s h
  simp [stripLeadSpec, matchesAt_of_contains_false pat s h]

/-- C3 amended: the id generator is a pure total function; on every path
that actually starts with the fixed base `/freedevtools/svg_icons/` and on
every path not containing the base at all, it coincides with the claimed
composition — strip the base, trim one trailing slash, map `/` to `-`, map
characters outside `[a-zA-Z0-9-_]` to `_`, prepend `svg-icons-` — and the
empty path yields the degenerate id `svg-icons-`.  (The two functions differ
only on paths containing the base strictly inside.) -/
theorem c3_lead_case_eq :
    (∀ p : GoStr, matchesAt svgIconsBase p = true →
      generateIconIDFromPath p = generateIconIDSpec p) ∧
    (∀ p : GoStr, containsSub svgIconsBase p = false →
      generateIconIDFromPath p = generateIconIDSpec p) ∧
    generateIconIDFromPath [] = goStr "svg-icons-" := by
  refine ⟨fun p h => ?_, fun p h => ?_, by decide⟩
  · have h1 : replaceFirst svgIconsBase p = p.drop svgIconsBase.length := by
      cases p with
      | nil => exact absurd h (by decide)
      | cons c cs => simp [replaceFirst, h]
    have h2 : stripLeadSpec svgIconsBase p = p.drop svgIconsBase.length := by
      simp [stripLeadSpec, h]
    simp [generateIconIDFromPath, generateIconIDSpec, sanitizeID, h1, h2]
  · have h1 : replaceFirst svgIconsBase p = p :=
      replaceFirst_of_contains_false svgIconsBase p h
    have h2 : stripLeadSpec svgIconsBase p = p :=
      stripLeadSpec_of_contains_false svgIconsBase p h
    simp [generateIconIDFromPath, generateIconIDSpec, sanitizeID, h1, h2]

/-- Witness for C3 amended: on the canonical example path of the spec
(which starts with the base) and on a path free of the base, the code and
the spec composition agree. -/
theorem c3_lead_case_eq_witness :
    (matchesAt svgIconsBase
        (goStr "/freedevtools/svg_icons/arrows/_left-arrow.svg/") = true ∧
     generateIconIDFromPath
        (goStr "/freedevtools/svg_icons/arrows/_left-arrow.svg/") =
       generateIconIDSpec
        (goStr "/freedevtools/svg_icons/arrows/_left-arrow.svg/")) ∧
    (containsSub svgIconsBase (goStr "foo/bar") = false ∧
     generateIconIDFromPath (goStr "foo/bar") =
       generateIconIDSpec (goStr "foo/bar")) :=
  ⟨⟨by decide, c3_lead_case_eq.1 _ (by decide)⟩,
   ⟨by decide, c3_lead_case_eq.2.1 _ (by decide)⟩⟩

/-- The selection-state invariant: the multi-selection is empty exactly when
the active category is `all`. -/
def catInv (s : CatState) : Prop :=
  s.selectedCategories = [] ↔ s.activeCategory = "all"

theorem catStep_inv (s : CatState) (e : CatEv) :
    catInv (catStep s e) := by
  cases e with
  | leftClick c =>
    by_cases hc : c = "all" <;> simp [catStep, catInv, hc]
  | rightClick c =>
    simp only [catStep]
    split
    · exact iff_of_true rfl rfl
    · split
      · split
        · rename_i hemp
          exact iff_of_true (List.isEmpty_iff.mp hemp) rfl
        · rename_i hemp
          refine iff_of_false (fun he => hemp ?_) (by simp)
          simpa using congrArg List.isEmpty he
      · exact iff_of_false (by simp) (by simp)
  | clearResults => exact iff_of_true rfl rfl

theorem foldl_catStep_inv (evs : List CatEv) (s : CatState) (h : catInv s) :
    catInv (evs.foldl catStep s) := by
  induction evs generalizing s with
  | nil => exact h
  | cons e evs ih => exact ih _ (catStep_inv s e)

theorem getEffective_empty_iff (s : CatState) (h : catInv s) :
    getEffectiveCategories s = [] ↔ s.activeCategory = "all" := by
  by_cases hall : s.activeCategory = "all"
  · simp [getEffectiveCategories, hall]
  · by_cases hmulti : s.activeCategory = "multi"
    · have hne : s.selectedCategories ≠ [] := fun he => hall (h.mp he)
      simp [getEffectiveCategories, hall, hmulti, hne]
    · simp [getEffectiveCategories, hall, hmulti]

/-- C10: after any sequence of category left-clicks, right-clicks and
clear-results operations from the initial state, `selectedCategories` is
empty exactly when `activeCategory` is `all`, and `getEffectiveCategories`
returns the empty list ("no filter") exactly when `activeCategory` is `all`
(and a non-empty list otherwise). -/
theorem c10_selection_invariant (evs : List CatEv) :
    ((runCat evs).selectedCategories = [] ↔ (runCat evs).activeCategory = "all") ∧
    (getEffectiveCategories (runCat evs) = [] ↔
      (runCat evs).activeCategory = "all") := by
  have h : catInv (runCat evs) := foldl_catStep_inv evs initCatState (by simp [catInv, initCatState])
  exact ⟨h, getEffective_empty_iff _ h⟩

theorem goStrLt_asymm : ∀ a b : GoStr, goStrLt a b = true → goStrLt b a = false := by
  intro a
  induction a with
  | nil =>
    intro b hab
    cases b with
    | nil => simp [goStrLt] at hab
    | cons y ys => simp [goStrLt]
  | cons x xs ih =>
    intro b hab
    cases b with
    | nil => simp [goStrLt] at hab
    | cons y ys =>
      simp only [goStrLt] at hab ⊢
      rcases Nat.lt_trichotomy x y with hxy | hxy | hxy
      · simp [hxy, Nat.not_lt_of_lt hxy]
      · subst hxy
        simp only [Nat.lt_irrefl, if_false] at hab ⊢
        exact ih ys hab
      · simp [hxy, Nat.not_lt_of_lt hxy] at hab

theorem goStrLt_trans :
    ∀ a b c : GoStr, goStrLt a b = true → goStrLt b c = true → goStrLt a c = true := by
  intro a
  induction a with
  | nil =>
    intro b c hab hbc
    cases b with
    | nil => simp [goStrLt] at hab
    | cons y ys =>
      cases c with
      | nil => simp [goStrLt] at hbc
      | cons z zs => simp [goStrLt]
  | cons x xs ih =>
    intro b c hab hbc
    cases b with
    | nil => simp [goStrLt] at hab
    | cons y ys =>
      cases c with
      | nil => simp [goStrLt] at hbc
      | cons z zs =>
        simp only [goStrLt] at hab hbc ⊢
        rcases Nat.lt_trichotomy x y with hxy | hxy | hxy
        · rcases Nat.lt_trichotomy y z with hyz | hyz | hyz
          · simp [Nat.lt_trans hxy hyz]
          · subst hyz
            simp [hxy]
          · simp [hyz, Nat.not_lt_of_lt hyz] at hbc
        · subst hxy
          simp only [Nat.lt_irrefl, if_false] at hab
          rcases Nat.lt_trichotomy x z with hxz | hxz | hxz
          · simp [hxz]
          · subst hxz
            simp only [Nat.lt_irrefl, if_false] at hbc ⊢
            exact ih ys zs hab hbc
          · simp [hxz, Nat.not_lt_of_lt hxz] at hbc
        · simp [hxy, Nat.not_lt_of_lt hxy] at hab

theorem mem_insertByID (x z : SVGIconData) :
    ∀ l : List SVGIconData, z ∈ insertByID x l ↔ z = x ∨ z ∈ l := by
  intro l
  induction l with
  | nil => simp [insertByID]
  | cons y ys ih =>
    by_cases hxy : goStrLt x.ID y.ID
    · simp [insertByID, hxy]
    · simp [insertByID, hxy, ih]
      tauto

theorem pairwise_insertByID (x : SVGIconData) :
    ∀ l : List SVGIconData,
      l.Pairwise (fun a b => goStrLt b.ID a.ID = false) →
      (insertByID x l).Pairwise (fun a b => goStrLt b.ID a.ID = false) := by
  intro l
  induction l with
  | nil =>
    intro _
    simp [insertByID]
  | cons y ys ih =>
    intro hp
    rcases List.pairwise_cons.mp hp with ⟨hy, hys⟩
    by_cases hxy : goStrLt x.ID y.ID
    · simp only [insertByID, hxy, if_true]
      refine List.pairwise_cons.mpr ⟨?_, hp⟩
      intro z hz
      rcases List.mem_cons.mp hz with hzy | hzys
      · subst hzy
        exact goStrLt_asymm _ _ hxy
      · cases hzx : goStrLt z.ID x.ID
        · rfl
        · exact absurd (goStrLt_trans _ _ _ hzx hxy) (by simp [hy z hzys])
    · simp only [insertByID, hxy, if_false]
      refine List.pairwise_cons.mpr ⟨?_, ih hys⟩
      intro z hz
      rcases (mem_insertByID x z ys).mp hz with hzx | hzys
      · subst hzx
        exact Bool.eq_false_iff.mpr hxy
      · exact hy z hzys

theorem pairwise_sortByID (l : List SVGIconData) :
    (sortByID l).Pairwise (fun a b => goStrLt b.ID a.ID = false) := by
  induction l with
  | nil => simp [sortByID]
  | cons x xs ih => exact pairwise_insertByID x _ ih

/-- C7: the SVG-icons build is deterministic — on a fixed parsed source
cluster structure `generateSVGIconsData` is a pure function, so any two runs
yield the same document sequence — and its output is sorted by `id` in
ascending (non-decreasing lexicographic) order. -/
theorem c7_deterministic_sorted (c : SVGCluster) :
    generateSVGIconsData c = generateSVGIconsData c ∧
    (generateSVGIconsData c).Pairwise (fun a b => goStrLt b.ID a.ID = false) :=
  ⟨rfl, pairwise_sortByID _⟩

theorem toUpperRune_idem (n : Nat) : toUpperRune (toUpperRune n) = toUpperRune n := by
  simp only [toUpperRune]
  split
  · split <;> omega
  · omega

theorem toLowerRune_idem (n : Nat) : toLowerRune (toLowerRune n) = toLowerRune n := by
  simp only [toLowerRune]
  split
  · split <;> omega
  · omega

theorem isSpaceRune_toUpper (n : Nat) : isSpaceRune (toUpperRune n) = isSpaceRune n := by
  unfold toUpperRune
  split
  · rename_i h
    have h1 : isSpaceRune (n - 32) = false := by simp [isSpaceRune]; omega
    have h2 : isSpaceRune n = false := by simp [isSpaceRune]; omega
    rw [h1, h2]
  · rfl

theorem isSpaceRune_toLower (n : Nat) : isSpaceRune (toLowerRune n) = isSpaceRune n := by
  unfold toLowerRune
  split
  · rename_i h
    have h1 : isSpaceRune (n + 32) = false := by simp [isSpaceRune]; omega
    have h2 : isSpaceRune n = false := by simp [isSpaceRune]; omega
    rw [h1, h2]
  · rfl

theorem toUpperRune_ne (n : Nat) (h95 : n ≠ 95) (h45 : n ≠ 45) :
    toUpperRune n ≠ 95 ∧ toUpperRune n ≠ 45 := by
  unfold toUpperRune
  split <;> omega

theorem toLowerRune_ne (n : Nat) (h95 : n ≠ 95) (h45 : n ≠ 45) :
    toLowerRune n ≠ 95 ∧ toLowerRune n ≠ 45 := by
  unfold toLowerRune
  split <;> omega

theorem replaceAll_ne (a b : Nat) (hb : b ≠ a) :
    ∀ s : GoStr, ∀ c ∈ replaceAll a b s, c ≠ a := by
  intro s
  induction s with
  | nil => simp [replaceAll]
  | cons d ds ih =>
    intro c hc
    rcases List.mem_cons.mp hc with hhd | htl
    · subst hhd
      by_cases hda : d = a <;> simp [hda, hb]
    · exact ih c htl

theorem replaceAll_chars (a b : Nat) :
    ∀ s : GoStr, ∀ c ∈ replaceAll a b s, c = b ∨ c ∈ s := by
  intro s
  induction s with
  | nil => simp [replaceAll]
  | cons d ds ih =>
    intro c hc
    rcases List.mem_cons.mp hc with hhd | htl
    · by_cases hda : d = a
      · simp [hda] at hhd
        exact Or.inl hhd
      · simp [hda] at hhd
        exact Or.inr (by simp [hhd])
    · rcases ih c htl with h | h
      · exact Or.inl h
      · exact Or.inr (List.mem_cons_of_mem _ h)

theorem replaceAll_eq_self (a b : Nat) :
    ∀ s : GoStr, (∀ c ∈ s, c ≠ a) → replaceAll a b s = s := by
  intro s
  induction s with
  | nil => intro _; rfl
  | cons d ds ih =>
    intro h
    have hd : d ≠ a := h d (List.mem_cons_self d ds)
    simp only [replaceAll, List.map_cons, if_neg hd]
    have := ih (fun c hc => h c (List.mem_cons_of_mem _ hc))
    simpa [replaceAll] using this

theorem fieldsGo_cons_space (a : Nat) (as : GoStr) (ha : isSpaceRune a = true) :
    fieldsGo (a :: as) = fieldsGo as := by
  rw [fieldsGo.eq_def]
  simp [ha]

theorem fieldsGo_one (a : Nat) (ha : isSpaceRune a = false) :
    fieldsGo [a] = [[a]] := by
  rw [fieldsGo.eq_def]
  simp [ha]

theorem fieldsGo_cons2_space (a d : Nat) (ds : GoStr)
    (ha : isSpaceRune a = false) (hd : isSpaceRune d = true) :
    fieldsGo (a :: d :: ds) = [a] :: fieldsGo (d :: ds) := by
  rw [fieldsGo.eq_def]
  simp [ha, hd]

theorem fieldsGo_cons2_word (a d : Nat) (ds : GoStr)
    (ha : isSpaceRune a = false) (hd : isSpaceRune d = false) :
    fieldsGo (a :: d :: ds) =
      match fieldsGo (d :: ds) with
      | [] => [[a]]
      | w :: ws => (a :: w) :: ws := by
  rw [fieldsGo.eq_def]
  simp [ha, hd]

theorem fieldsGo_sound :
    ∀ s : GoStr, ∀ w ∈ fieldsGo s,
      w ≠ [] ∧ ∀ c ∈ w, isSpaceRune c = false ∧ c ∈ s := by
  intro s
  induction s with
  | nil =>
    intro w hw
    simp [fieldsGo] at hw
  | cons a as ih =>
    intro w hw
    cases ha : isSpaceRune a with
    | true =>
      rw [fieldsGo_cons_space a as ha] at hw
      obtain ⟨hne, hchar⟩ := ih w hw
      exact ⟨hne, fun c hc =>
        ⟨(hchar c hc).1, List.mem_cons_of_mem _ (hchar c hc).2⟩⟩
    | false =>
      cases as with
      | nil =>
        rw [fieldsGo_one a ha] at hw
        simp only [List.mem_singleton] at hw
        subst hw
        exact ⟨List.cons_ne_nil _ _, fun c hc => by
          simp only [List.mem_singleton] at hc
          subst hc
          exact ⟨ha, List.mem_cons_self _ _⟩⟩
      | cons d ds =>
        cases hd : isSpaceRune d with
        | true =>
          rw [fieldsGo_cons2_space a d ds ha hd] at hw
          rcases List.mem_cons.mp hw with hwa | hwrest
          · subst hwa
            exact ⟨List.cons_ne_nil _ _, fun c hc => by
              simp only [List.mem_singleton] at hc
              subst hc
              exact ⟨ha, List.mem_cons_self _ _⟩⟩
          · obtain ⟨hne, hchar⟩ := ih w hwrest
            exact ⟨hne, fun c hc =>
              ⟨(hchar c hc).1, List.mem_cons_of_mem _ (hchar c hc).2⟩⟩
        | false =>
          rw [fieldsGo_cons2_word a d ds ha hd] at hw
          cases hrec : fieldsGo (d :: ds) with
          | nil =>
            simp only [hrec, List.mem_singleton] at hw
            subst hw
            exact ⟨List.cons_ne_nil _ _, fun c hc => by
              simp only [List.mem_singleton] at hc
              subst hc
              exact ⟨ha, List.mem_cons_self _ _⟩⟩
          | cons w0 ws =>
            simp only [hrec] at hw
            rcases List.mem_cons.mp hw with hwa | hwrest
            · subst hwa
              refine ⟨List.cons_ne_nil _ _, fun c hc => ?_⟩
              rcases List.mem_cons.mp hc with hca | hcw0
              · subst hca
                exact ⟨ha, List.mem_cons_self _ _⟩
              · have hw0 : w0 ∈ fieldsGo (d :: ds) := by
                  rw [hrec]; exact List.mem_cons_self _ _
                obtain ⟨_, hchar⟩ := ih w0 hw0
                exact ⟨(hchar c hcw0).1, List.mem_cons_of_mem _ (hchar c hcw0).2⟩
            · have hwmem : w ∈ fieldsGo (d :: ds) := by
                rw [hrec]; exact List.mem_cons_of_mem _ hwrest
              obtain ⟨hne, hchar⟩ := ih w hwmem
              exact ⟨hne, fun c hc =>
                ⟨(hchar c hc).1, List.mem_cons_of_mem _ (hchar c hc).2⟩⟩

theorem fieldsGo_single :
    ∀ w : GoStr, w ≠ [] → (∀ c ∈ w, isSpaceRune c = false) → fieldsGo w = [w] := by
  intro w
  induction w with
  | nil => intro h; exact absurd rfl h
  | cons a as ih =>
    intro _ hchar
    have ha : isSpaceRune a = false := hchar a (List.mem_cons_self _ _)
    cases as with
    | nil => exact fieldsGo_one a ha
    | cons d ds =>
      have hd : isSpaceRune d = false :=
        hchar d (List.mem_cons_of_mem _ (List.mem_cons_self _ _))
      have hrec : fieldsGo (d :: ds) = [d :: ds] :=
        ih (List.cons_ne_nil _ _) (fun c hc => hchar c (List.mem_cons_of_mem _ hc))
      rw [fieldsGo_cons2_word a d ds ha hd, hrec]

theorem fieldsGo_append_sep :
    ∀ w : GoStr, w ≠ [] → (∀ c ∈ w, isSpaceRune c = false) →
      ∀ t : GoStr, fieldsGo (w ++ 32 :: t) = w :: fieldsGo t := by
  intro w
  induction w with
  | nil => intro h; exact absurd rfl h
  | cons a as ih =>
    intro _ hchar t
    have ha : isSpaceRune a = false := hchar a (List.mem_cons_self _ _)
    cases as with
    | nil =>
      show fieldsGo (a :: 32 :: t) = [a] :: fieldsGo t
      rw [fieldsGo_cons2_space a 32 t ha (by decide),
        fieldsGo_cons_space 32 t (by decide)]
    | cons b bs =>
      have hb : isSpaceRune b = false :=
        hchar b (List.mem_cons_of_mem _ (List.mem_cons_self _ _))
      have hrec := ih (List.cons_ne_nil _ _)
        (fun c hc => hchar c (List.mem_cons_of_mem _ hc)) t
      show fieldsGo (a :: (b :: bs ++ 32 :: t)) = (a :: b :: bs) :: fieldsGo t
      simp only [List.cons_append] at hrec ⊢
      rw [fieldsGo_cons2_word a b (bs ++ 32 :: t) ha hb, hrec]

theorem fieldsGo_join :
    ∀ ws : List GoStr,
      (∀ w ∈ ws, w ≠ [] ∧ ∀ c ∈ w, isSpaceRune c = false) →
      fieldsGo (joinWords ws) = ws := by
  intro ws
  induction ws with
  | nil => intro _; rfl
  | cons w ws ih =>
    intro h
    obtain ⟨hne, hchar⟩ := h w (List.mem_cons_self _ _)
    cases ws with
    | nil => simpa [joinWords] using fieldsGo_single w hne hchar
    | cons v vs =>
      rw [show joinWords (w :: v :: vs) = w ++ 32 :: joinWords (v :: vs) from rfl,
        fieldsGo_append_sep w hne hchar,
        ih (fun u hu => h u (List.mem_cons_of_mem _ hu))]

theorem titleWord_ne_nil (w : GoStr) (h : w ≠ []) : titleWord w ≠ [] := by
  cases w with
  | nil => exact absurd rfl h
  | cons a as => simp [titleWord]

theorem titleWord_chars (w : GoStr) :
    ∀ c ∈ titleWord w, ∃ d ∈ w, c = toUpperRune d ∨ c = toLowerRune d := by
  cases w with
  | nil => simp [titleWord]
  | cons a as =>
    intro c hc
    rcases List.mem_cons.mp hc with hca | hcas
    · exact ⟨a, List.mem_cons_self _ _, Or.inl hca⟩
    · rcases List.mem_map.mp hcas with ⟨d, hd, hcd⟩
      exact ⟨d, List.mem_cons_of_mem _ hd, Or.inr hcd.symm⟩

theorem titleWord_idem (w : GoStr) : titleWord (titleWord w) = titleWord w := by
  cases w with
  | nil => rfl
  | cons a as =>
    simp only [titleWord, toUpperRune_idem, List.map_map, List.cons.injEq, true_and]
    exact List.map_congr_left fun d _ => toLowerRune_idem d

theorem joinWords_chars :
    ∀ ws : List GoStr, ∀ c ∈ joinWords ws, c = 32 ∨ ∃ w ∈ ws, c ∈ w := by
  intro ws
  induction ws with
  | nil => simp [joinWords]
  | cons w ws ih =>
    cases ws with
    | nil =>
      intro c hc
      exact Or.inr ⟨w, List.mem_cons_self _ _, hc⟩
    | cons v vs =>
      intro c hc
      rw [show joinWords (w :: v :: vs) = w ++ 32 :: joinWords (v :: vs) from rfl] at hc
      rcases List.mem_append.mp hc with hcw | hcrest
      · exact Or.inr ⟨w, List.mem_cons_self _ _, hcw⟩
      · rcases List.mem_cons.mp hcrest with hc32 | hcjoin
        · exact Or.inl hc32
        · rcases ih c hcjoin with h32 | ⟨u, hu, hcu⟩
          · exact Or.inl h32
          · exact Or.inr ⟨u, List.mem_cons_of_mem _ hu, hcu⟩

theorem formatIconName_fixed (ws : List GoStr)
    (h : ∀ w ∈ ws, w ≠ [] ∧ ∀ c ∈ w, isSpaceRune c = false ∧ c ≠ 95 ∧ c ≠ 45)
    (hidem : ws.map titleWord = ws) :
    formatIconName (joinWords ws) = joinWords ws := by
  have hchars : ∀ c ∈ joinWords ws, c ≠ 95 ∧ c ≠ 45 := by
    intro c hc
    rcases joinWords_chars ws c hc with h32 | ⟨w, hw, hcw⟩
    · subst h32
      exact ⟨by omega, by omega⟩
    · exact ⟨((h w hw).2 c hcw).2.1, ((h w hw).2 c hcw).2.2⟩
  have h95 : replaceAll 95 32 (joinWords ws) = joinWords ws :=
    replaceAll_eq_self 95 32 _ (fun c hc => (hchars c hc).1)
  have h45 : replaceAll 45 32 (joinWords ws) = joinWords ws :=
    replaceAll_eq_self 45 32 _ (fun c hc => (hchars c hc).2)
  unfold formatIconName
  rw [h95, h45, fieldsGo_join ws
    (fun w hw => ⟨(h w hw).1, fun c hc => ((h w hw).2 c hc).1⟩), hidem]

/-- Idempotence of the rune-level reading of the normalizer: replacing
underscores and hyphens by spaces and title-casing each whitespace-delimited
word, with the title-case applied to the first *rune*, is idempotent. -/
theorem formatIconName_runes_idem (x : GoStr) :
    formatIconName (formatIconName x) = formatIconName x := by
  have hB : ∀ c ∈ replaceAll 45 32 (replaceAll 95 32 x), c ≠ 95 ∧ c ≠ 45 := by
    intro c hc
    refine ⟨?_, replaceAll_ne 45 32 (by omega) _ c hc⟩
    rcases replaceAll_chars 45 32 _ c hc with h32 | hy
    · omega
    · exact replaceAll_ne 95 32 (by omega) _ c hy
  have hC : ∀ w ∈ (fieldsGo (replaceAll 45 32 (replaceAll 95 32 x))).map titleWord,
      w ≠ [] ∧ ∀ c ∈ w, isSpaceRune c = false ∧ c ≠ 95 ∧ c ≠ 45 := by
    intro w hw
    rcases List.mem_map.mp hw with ⟨u, hu, rfl⟩
    obtain ⟨hune, huchar⟩ := fieldsGo_sound _ u hu
    refine ⟨titleWord_ne_nil u hune, ?_⟩
    intro c hc
    rcases titleWord_chars u c hc with ⟨d, hd, hcd | hcd⟩
    · obtain ⟨hdns, hdmem⟩ := huchar d hd
      obtain ⟨hd95, hd45⟩ := hB d hdmem
      subst hcd
      exact ⟨by rw [isSpaceRune_toUpper]; exact hdns,
        (toUpperRune_ne d hd95 hd45).1, (toUpperRune_ne d hd95 hd45).2⟩
    · obtain ⟨hdns, hdmem⟩ := huchar d hd
      obtain ⟨hd95, hd45⟩ := hB d hdmem
      subst hcd
      exact ⟨by rw [isSpaceRune_toLower]; exact hdns,
        (toLowerRune_ne d hd95 hd45).1, (toLowerRune_ne d hd95 hd45).2⟩
  have hmap : ((fieldsGo (replaceAll 45 32 (replaceAll 95 32 x))).map titleWord).map
      titleWord = (fieldsGo (replaceAll 45 32 (replaceAll 95 32 x))).map titleWord := by
    rw [List.map_map]
    exact List.map_congr_left fun u _ => titleWord_idem u
  exact formatIconName_fixed _ hC hmap

theorem utf8DecodeFront_ascii (b : Nat) (bs : List Nat) (hb : b < 128) :
    utf8DecodeFront (b :: bs) = (b, 1) := by
  rw [utf8DecodeFront.eq_def]
  simp [hb]

theorem utf8EncodeRune_ascii (r : Nat) (hr : r < 128) : utf8EncodeRune r = [r] := by
  simp [utf8EncodeRune, hr]

theorem utf8ChunksAux_ascii :
    ∀ (fuel : Nat) (s : List Nat), s.length ≤ fuel → (∀ b ∈ s, b < 128) →
      utf8ChunksAux fuel s = s.map (fun b => (b, [b])) := by
  intro fuel
  induction fuel with
  | zero =>
    intro s hlen _
    cases s with
    | nil => rfl
    | cons b bs => simp at hlen
  | succ fuel ih =>
    intro s hlen h
    cases s with
    | nil => rfl
    | cons b bs =>
      have hb : b < 128 := h b (List.mem_cons_self _ _)
      rw [utf8ChunksAux, utf8DecodeFront_ascii b bs hb]
      simp only [List.take_succ_cons, List.take_zero, Nat.sub_self, List.drop_zero]
      rw [ih bs (by simpa using hlen) (fun c hc => h c (List.mem_cons_of_mem _ hc))]
      rfl

theorem utf8Chunks_ascii (s : List Nat) (h : ∀ b ∈ s, b < 128) :
    utf8Chunks s = s.map (fun b => (b, [b])) :=
  utf8ChunksAux_ascii s.length s (Nat.le_refl _) h

theorem isSpaceRuneGo_ascii (b : Nat) (hb : b < 128) :
    isSpaceRuneGo b = isSpaceRune b := by
  cases hsp : isSpaceRune b with
  | true =>
    simp only [isSpaceRune, Bool.or_eq_true, decide_eq_true_eq] at hsp
    simp only [isSpaceRuneGo, Bool.or_eq_true, Bool.and_eq_true,
      decide_eq_true_eq]
    omega
  | false =>
    simp only [isSpaceRune, Bool.or_eq_false_iff, decide_eq_false_iff_not] at hsp
    simp only [isSpaceRuneGo, Bool.or_eq_false_iff, Bool.and_eq_false_iff,
      decide_eq_false_iff_not]
    omega

theorem fieldsChunks_ascii :
    ∀ s : List Nat, (∀ b ∈ s, b < 128) →
      fieldsChunks (s.map (fun b => (b, [b]))) = fieldsGo s := by
  intro s
  induction s with
  | nil => intro _; rfl
  | cons a as ih =>
    intro h
    have ha : a < 128 := h a (List.mem_cons_self _ _)
    have hih := ih (fun c hc => h c (List.mem_cons_of_mem _ hc))
    cases hsa : isSpaceRune a with
    | true =>
      rw [List.map_cons, fieldsChunks.eq_def]
      simp only [isSpaceRuneGo_ascii a ha, hsa, if_true]
      rw [hih, fieldsGo_cons_space a as hsa]
    | false =>
      cases as with
      | nil =>
        rw [fieldsGo_one a hsa, List.map_cons, List.map_nil, fieldsChunks.eq_def]
        simp [isSpaceRuneGo_ascii a ha, hsa]
      | cons d ds =>
        have hd : d < 128 :=
          h d (List.mem_cons_of_mem _ (List.mem_cons_self _ _))
        cases hsd : isSpaceRune d with
        | true =>
          rw [List.map_cons, fieldsChunks.eq_def]
          simp only [isSpaceRuneGo_ascii a ha, hsa, Bool.false_eq_true, if_false,
            List.map_cons, isSpaceRuneGo_ascii d hd, hsd, if_true]
          rw [List.map_cons] at hih
          rw [hih, fieldsGo_cons2_space a d ds hsa hsd]
        | false =>
          rw [List.map_cons, fieldsChunks.eq_def]
          simp only [isSpaceRuneGo_ascii a ha, hsa, Bool.false_eq_true, if_false,
            List.map_cons, isSpaceRuneGo_ascii d hd, hsd]
          rw [List.map_cons] at hih
          rw [hih, fieldsGo_cons2_word a d ds hsa hsd]
          cases hrec : fieldsGo (d :: ds) with
          | nil => rfl
          | cons w ws => rfl

theorem toUpperRune_lt128 (b : Nat) (hb : b < 128) : toUpperRune b < 128 := by
  unfold toUpperRune
  split <;> omega

theorem toLowerRune_lt128 (b : Nat) (hb : b < 128) : toLowerRune b < 128 := by
  unfold toLowerRune
  split <;> omega

theorem mapRunes_ascii (f : Nat → Nat) (hf : ∀ b, b < 128 → f b < 128) :
    ∀ s : List Nat, (∀ b ∈ s, b < 128) → mapRunes f s = s.map f := by
  intro s h
  unfold mapRunes
  rw [utf8Chunks_ascii s h, List.map_map]
  induction s with
  | nil => rfl
  | cons b bs ih =>
    have hb : b < 128 := h b (List.mem_cons_self _ _)
    simp only [List.map_cons, List.flatten_cons, Function.comp_apply]
    rw [utf8EncodeRune_ascii (f b) (hf b hb),
      ih (fun c hc => h c (List.mem_cons_of_mem _ hc))]
    rfl

theorem titleWordBytes_ascii (w : List Nat) (h : ∀ b ∈ w, b < 128) :
    titleWordBytes w = titleWord w := by
  cases w with
  | nil => rfl
  | cons c cs =>
    have hc : c < 128 := h c (List.mem_cons_self _ _)
    show mapRunes toUpperRune [c] ++ mapRunes toLowerRune cs =
      toUpperRune c :: cs.map toLowerRune
    rw [mapRunes_ascii toUpperRune toUpperRune_lt128 [c]
        (by intro b hb; simp at hb; omega),
      mapRunes_ascii toLowerRune toLowerRune_lt128 cs
        (fun b hb => h b (List.mem_cons_of_mem _ hb))]
    rfl

theorem replaceAll_3245_ascii (x : List Nat) (h : ∀ b ∈ x, b < 128) :
    ∀ b ∈ replaceAll 45 32 (replaceAll 95 32 x), b < 128 := by
  intro b hb
  rcases replaceAll_chars 45 32 _ b hb with h32 | hy
  · omega
  · rcases replaceAll_chars 95 32 _ b hy with h32 | hx
    · omega
    · exact h b hx

theorem formatIconNameBytes_ascii (x : List Nat) (h : ∀ b ∈ x, b < 128) :
    formatIconNameBytes x = formatIconName x := by
  have hR := replaceAll_3245_ascii x h
  unfold formatIconNameBytes formatIconName fieldsBytes
  rw [utf8Chunks_ascii _ hR, fieldsChunks_ascii _ hR]
  congr 1
  apply List.map_congr_left
  intro w hw
  exact titleWordBytes_ascii w (fun b hb => hR b ((fieldsGo_sound _ w hw).2 b hb).2)

theorem formatIconName_ascii_closed (x : List Nat) (h : ∀ b ∈ x, b < 128) :
    ∀ c ∈ formatIconName x, c < 128 := by
  have hR := replaceAll_3245_ascii x h
  intro c hc
  unfold formatIconName at hc
  rcases joinWords_chars _ c hc with h32 | ⟨w, hw, hcw⟩
  · omega
  · rcases List.mem_map.mp hw with ⟨u, hu, rfl⟩
    rcases titleWord_chars u c hcw with ⟨d, hd, hcd | hcd⟩
    · have hdlt : d < 128 := hR d ((fieldsGo_sound _ u hu).2 d hd).2
      subst hcd
      exact toUpperRune_lt128 d hdlt
    · have hdlt : d < 128 := hR d ((fieldsGo_sound _ u hu).2 d hd).2
      subst hcd
      exact toLowerRune_lt128 d hdlt

/-- C4 counterexample: the normalizer is not idempotent on every input
string.  The Go code title-cases `word[:1]` — the first *byte* — so on the
input `é` (UTF-8 bytes `[195, 169]`) one application splits the two-byte
rune and yields two replacement runes U+FFFD (bytes
`[239,191,189,239,191,189]`), and a second application splits the first
U+FFFD's lead byte again and yields four U+FFFD — the two results differ. -/
theorem c4_bytes_not_idem :
    formatIconNameBytes [195, 169] = [239, 191, 189, 239, 191, 189] ∧
    formatIconNameBytes (formatIconNameBytes [195, 169]) =
      [239, 191, 189, 239, 191, 189, 239, 191, 189, 239, 191, 189] ∧
    decide (formatIconNameBytes (formatIconNameBytes [195, 169]) =
      formatIconNameBytes [195, 169]) = false := by
  exact ⟨by decide, by decide, by decide⟩

/-- C4 amended: the display-name normalizer is idempotent on every input
whose bytes are ASCII (all below 128) — there the byte-level function
coincides with its rune-level reading, and
`formatIconNameBytes (formatIconNameBytes x) = formatIconNameBytes x`.
Idempotence fails only on words beginning with a multi-byte rune, which the
byte-sliced title-case mangles into U+FFFD sequences. -/
theorem c4_ascii_idem (x : List Nat) (h : ∀ b ∈ x, b < 128) :
    formatIconNameBytes x = formatIconName x ∧
    formatIconNameBytes (formatIconNameBytes x) = formatIconNameBytes x := by
  have he := formatIconNameBytes_ascii x h
  refine ⟨he, ?_⟩
  rw [he, formatIconNameBytes_ascii _ (formatIconName_ascii_closed x h)]
  exact formatIconName_runes_idem x

/-- Witness for C4 amended: on the ASCII input `left_arrow-up` the
byte-level normalizer is idempotent. -/
theorem c4_ascii_idem_witness :
    (∀ b ∈ goStr "left_arrow-up", b < 128) ∧
    formatIconNameBytes (formatIconNameBytes (goStr "left_arrow-up")) =
      formatIconNameBytes (goStr "left_arrow-up") :=
  ⟨by decide, (c4_ascii_idem (goStr "left_arrow-up") (by decide)).2⟩
